import Mathlib

/-!
# Verification of `main.py` (round-robin tournament schedule generator)

Shallow embedding of the tournament schedule generator:
`round_robin_pairings` (circle method), `double_round_robin`,
`build_schedule_df`, `build_points_df`, and the standings/workbook assembly
performed by `write_excel`, together with proofs of the specified properties.

Python lists are modelled as Lean `List`s; the fallible list indexing
`players[0]` (which raises `IndexError` on an empty list) makes
`round_robin_pairings` return an `Option`.  `pandas`/`openpyxl` are external
collaborators: the small fragments of their behaviour that the program relies
on (DataFrame construction from a dict of columns, index-length validation,
scalar broadcasting, `get_column_letter`, sheet serialization) are modelled
explicitly where a claim depends on them.
-/

namespace Tournament

/-- One step of the circle rotation, from `others = [others[-1]] + others[:-1]`
(line 20 of `main.py`): move the last element to the front.  The source only
evaluates `others[-1]` on a nonempty list; on `[]` we return `[]`. -/
def rotateRight {α : Type*} (l : List α) : List α :=
  match l.getLast? with
  | none => []
  | some x => x :: l.dropLast

/-- The pairing constructed for one round (lines 14-18 of `main.py`):
`seq = [fixed] + others`, `left = seq[:half]`,
`right = list(reversed(seq[half:]))`, `pairs = [(left[i], right[i]) for i in
range(half)]`.  Since `left` has exactly `half = n // 2` elements and `right`
has `n - half ≥ half`, the index comprehension is exactly `left.zip right`. -/
def roundPairs {α : Type*} (n : Nat) (fixed : α) (others : List α) :
    List (α × α) :=
  let seq := fixed :: others
  let half := n / 2
  (seq.take half).zip ((seq.drop half).reverse)

/-- The `for _ in range(n - 1)` loop of `round_robin_pairings`
(lines 13-20 of `main.py`), appending one round per iteration and rotating
`others` rightwards by one after each round. -/
def rrLoop {α : Type*} (n : Nat) (fixed : α) :
    Nat → List α → List (List (α × α))
  | 0, _ => []
  | k + 1, others => roundPairs n fixed others :: rrLoop n fixed k (rotateRight others)

/-- `round_robin_pairings` (lines 7-21 of `main.py`).  `players[0]` raises
`IndexError` on an empty list, modelled by `none`; otherwise the circle-method
loop runs `n - 1` times. -/
def round_robin_pairings {α : Type*} (players : List α) :
    Option (List (List (α × α))) :=
  match players with
  | [] => none
  | fixed :: others =>
      some (rrLoop (others.length + 1) fixed others.length others)

/-- `double_round_robin` (lines 23-26 of `main.py`): append a mirrored copy
of the rounds, each pairing's two elements swapped. -/
def double_round_robin {α : Type*} (single_rounds : List (List (α × α))) :
    List (List (α × α)) :=
  let mirrored := single_rounds.map (fun rnd => rnd.map (fun p => (p.2, p.1)))
  single_rounds ++ mirrored

/-- The list of players appearing in a round, in pairing order: the flattening
of its pairings into their two components. -/
def roundPlayers {α : Type*} (rnd : List (α × α)) : List α :=
  rnd.flatMap (fun p => [p.1, p.2])

/-- A pandas `DataFrame` as the program uses it: a list of row labels
(the index) and a list of named columns, each a list of cell strings. -/
structure DataFrame where
  index : List String
  cols : List (String × List String)
deriving DecidableEq

/-- The `while len(cells) < tables: cells.append("")` padding loop of
`build_schedule_df` (lines 33-34 of `main.py`). -/
def padTo (tables : Nat) (cells : List String) : List String :=
  cells ++ List.replicate (tables - cells.length) ""

/-- The cell text `f"{a} vs {b}"` (line 32 of `main.py`). -/
def vsLabel (p : String × String) : String :=
  p.1 ++ " vs " ++ p.2

/-- `build_schedule_df` (lines 28-38 of `main.py`).  One column per round,
labelled `Round i`, holding the `a vs b` cells padded with `""` up to the
table count.  The two `none` cases model the `ValueError`s of the external
pandas collaborator: `pd.DataFrame(dict)` requires all columns to have equal
length (the frame then has that common row count, `0` when the dict is
empty), and the `df.index = [...]` assignment requires the label count to
equal the row count. -/
def build_schedule_df (players : List String)
    (rounds : List (List (String × String))) : Option DataFrame :=
  let tables := players.length / 2
  let data := rounds.enum.map
    (fun ir => ("Round " ++ toString (ir.1 + 1), padTo tables (ir.2.map vsLabel)))
  let nrows := (data.head?.elim 0 (fun c => c.2.length))
  if data.all (fun c => c.2.length = nrows) then
    if nrows = tables then
      some ⟨(List.range tables).map (fun i => "Table " ++ toString (i + 1)), data⟩
    else none
  else none

/-- `build_points_df` (lines 40-45 of `main.py`): `pd.DataFrame("", index=
[Round 1..R], columns=players)` broadcasts the scalar `""` to every cell,
giving one row per round and one all-empty column per player. -/
def build_points_df (players : List String) (num_rounds : Nat) : DataFrame :=
  ⟨(List.range num_rounds).map (fun i => "Round " ++ toString (i + 1)),
    players.map (fun p => (p, List.replicate num_rounds ""))⟩

/-- `openpyxl.utils.get_column_letter` (bijective base-26 spreadsheet column
names, `1 ↦ A`, `26 ↦ Z`, `27 ↦ AA`, ...).  `ws.cell(row=1, column=idx)
.column_letter` (line 60 of `main.py`) is exactly this function of `idx`,
independent of the cell's content. -/
def get_column_letter_go : Nat → Nat → String
  | _, 0 => ""
  | 0, _ + 1 => ""
  | fuel + 1, idx + 1 =>
    get_column_letter_go fuel (idx / 26) ++
      String.singleton (Char.ofNat (65 + idx % 26))

/-- `openpyxl.utils.get_column_letter` continued: since the recursion divides
the index by 26 each step, a fuel of `idx` always suffices. -/
def get_column_letter (idx : Nat) : String :=
  get_column_letter_go idx idx

/-- The rows of the `Standings` sheet built by `write_excel`
(lines 57-64 of `main.py`): the header row, then for the player in 0-based
column position `i` of the points table (spreadsheet column `i + 2`, players
starting at column B) the row `[player, "=SUM(Points!L2:L(R+1))"]`, where `R`
is `points_df.shape[0]`, the number of round rows. -/
def standings_rows (points : DataFrame) : List (List String) :=
  let header := ["Player", "Total Points"]
  header :: (points.cols.map (fun c => c.1)).enum.map (fun ip =>
    let letter := get_column_letter (ip.1 + 2)
    [ip.2, "=SUM(Points!" ++ letter ++ "2:" ++ letter ++
      toString (points.index.length + 1) ++ ")"])

/-- A workbook as a list of named sheets, each a list of rows of cells. -/
abbrev Workbook := List (String × List (List String))

/-- `DataFrame.to_excel` serialization: a header row with a blank index-name
cell followed by the column labels, then one row per index entry holding the
row label and the row's cells. -/
def df_to_rows (df : DataFrame) : List (List String) :=
  ("" :: df.cols.map (fun c => c.1)) ::
    df.index.enum.map (fun il => il.2 :: df.cols.map (fun c => c.2.getD il.1 ""))

/-- `write_excel` (lines 47-71 of `main.py`), at the level of sheet cell
contents.  `pd.ExcelWriter(path, engine="openpyxl")` uses its default mode
`"w"`, creating a fresh workbook, so the prior file content `prior` is
discarded; `load_workbook` then reads back exactly the two just-written
sheets, the `Standings` sheet is removed if present (it never is at this
point) and rebuilt.  The column-width cosmetic pass changes no cell
content and is not modelled. -/
def write_excel_model (schedule points : DataFrame) (prior : Workbook) :
    Workbook :=
  let base : Workbook :=
    [("Schedule", df_to_rows schedule), ("Points", df_to_rows points)]
  let wb :=
    if base.any (fun s => s.1 == "Standings") then
      base.filter (fun s => !(s.1 == "Standings"))
    else base
  wb ++ [("Standings", standings_rows points)]

/-- `main` (lines 73-79 of `main.py`), at the level of the workbook cell
contents it writes over whatever workbook `prior` was at the output path:
generate the rounds, optionally double them, build both tables and write the
three sheets.  `none` models the `IndexError` escaping `round_robin_pairings`
on an empty player list and the pandas `ValueError`s of
`build_schedule_df`. -/
def main_model (players : List String) (double_round : Bool)
    (prior : Workbook) : Option Workbook := do
  let single ← round_robin_pairings players
  let rounds := if double_round then double_round_robin single else single
  let schedule_df ← build_schedule_df players rounds
  let points_df := build_points_df players rounds.length
  return write_excel_model schedule_df points_df prior

/-! ## Store-passing embedding

For the frame claim (the functions do not mutate their arguments) Python
lists are modelled as heap objects: a `Store` maps addresses to list
objects, every list-constructing expression (`players[1:]`, `[fixed] +
others`, slices, `reversed`, comprehensions, `+`) allocates a fresh object,
`rounds.append(pairs)` updates the `rounds` object in place (storing the
address of the `pairs` list), and `others = ...` merely rebinds the local
name to a fresh address. -/

/-- A Python list object: a list of strings, a list of string pairs, or a
list of references to pair-list objects. -/
inductive PyObj where
  | ostrs : List String → PyObj
  | opairs : List (String × String) → PyObj
  | orounds : List Nat → PyObj

/-- The heap: addresses are indices into a list of objects. -/
abbrev Store := List PyObj

/-- Allocate a fresh object, returning its address and the new store. -/
def alloc (σ : Store) (v : PyObj) : Nat × Store :=
  (σ.length, σ ++ [v])

/-- Read a string-list object (`[]` on a dangling or ill-typed address,
which the translated code never produces). -/
def readStrs (σ : Store) (a : Nat) : List String :=
  match σ.getD a (PyObj.ostrs []) with
  | PyObj.ostrs l => l
  | _ => []

/-- Read a pair-list object. -/
def readPairs (σ : Store) (a : Nat) : List (String × String) :=
  match σ.getD a (PyObj.opairs []) with
  | PyObj.opairs l => l
  | _ => []

/-- Read a rounds object (a list of pair-list addresses). -/
def readRounds (σ : Store) (a : Nat) : List Nat :=
  match σ.getD a (PyObj.orounds []) with
  | PyObj.orounds l => l
  | _ => []

/-- The loop body of `round_robin_pairings` (lines 13-20 of `main.py`) in the
store-passing embedding: `oa` is the address currently bound to `others`,
`ra` the address of `rounds`.  Each iteration allocates `seq`, `left`,
`right` and `pairs`, appends the address of `pairs` to the `rounds` object in
place, and rebinds `others` to a freshly allocated rotation. -/
def rrLoopSt (n : Nat) (fixed : String) :
    Nat → Nat → Nat → Store → Store
  | 0, _, _, σ => σ
  | k + 1, oa, ra, σ =>
    let A1 := alloc σ (PyObj.ostrs (fixed :: readStrs σ oa))
    let seq := readStrs A1.2 A1.1
    let half := n / 2
    let A2 := alloc A1.2 (PyObj.ostrs (seq.take half))
    let A3 := alloc A2.2 (PyObj.ostrs ((seq.drop half).reverse))
    let A4 := alloc A3.2
      (PyObj.opairs ((readStrs A3.2 A2.1).zip (readStrs A3.2 A3.1)))
    let σ5 := A4.2.set ra (PyObj.orounds (readRounds A4.2 ra ++ [A4.1]))
    let A6 := alloc σ5 (PyObj.ostrs (rotateRight (readStrs σ5 oa)))
    rrLoopSt n fixed k A6.1 ra A6.2

/-- `round_robin_pairings` in the store-passing embedding: `pa` is the
address of the caller's `players` list; the result is the address of the
`rounds` object together with the final store (`none` models the
`IndexError` of `players[0]` on an empty list). -/
def round_robin_pairings_st (σ : Store) (pa : Nat) : Option (Nat × Store) :=
  match readStrs σ pa with
  | [] => none
  | fixed :: rest =>
    let A1 := alloc σ (PyObj.ostrs rest)
    let A2 := alloc A1.2 (PyObj.orounds [])
    some (A2.1, rrLoopSt (rest.length + 1) fixed rest.length A1.1 A2.1 A2.2)

/-- The mirrored-rounds comprehension of `double_round_robin` (line 25 of
`main.py`) in the store-passing embedding: one fresh pair-list per input
round. -/
def drrLoopSt : List Nat → Store → List Nat × Store
  | [], σ => ([], σ)
  | rd :: rest, σ =>
    let A1 := alloc σ
      (PyObj.opairs ((readPairs σ rd).map (fun p => (p.2, p.1))))
    let R := drrLoopSt rest A1.2
    (A1.1 :: R.1, R.2)

/-- `double_round_robin` in the store-passing embedding: `ra` is the address
of the caller's rounds object; `single_rounds + mirrored` allocates a fresh
rounds object. -/
def double_round_robin_st (σ : Store) (ra : Nat) : Nat × Store :=
  let rds := readRounds σ ra
  let R := drrLoopSt rds σ
  alloc R.2 (PyObj.orounds (rds ++ R.1))

/-! ## Auxiliary notions for the correctness proofs -/

/-- Canonical representative of an unordered pair of positions. -/
def sortPair (p : Nat × Nat) : Nat × Nat :=
  (min p.1 p.2, max p.1 p.2)

/-- All ordered pairs `(u, v)` with `u < v < n`: one representative per
unordered pair of distinct positions. -/
def allP (n : Nat) : List (Nat × Nat) :=
  (List.range n).flatMap (fun v => (List.range v).map (fun u => (u, v)))

end Tournament

namespace Tournament

/-! ## Rotation lemmas -/

theorem rotateRight_eq_rotate {α : Type*} (l : List α) :
    rotateRight l = l.rotate (l.length - 1) := by
  cases l with
  | nil => simp [rotateRight]
  | cons x xs =>
    have hne : x :: xs ≠ [] := List.cons_ne_nil x xs
    have hlt : (x :: xs).length - 1 < (x :: xs).length := by simp
    rw [rotateRight, List.getLast?_eq_getLast _ hne,
      List.rotate_eq_drop_append_take (by omega),
      List.drop_eq_getElem_cons hlt, ← List.dropLast_eq_take,
      List.getLast_eq_getElem]
    have hlen : (x :: xs).length - 1 + 1 = (x :: xs).length := by simp
    rw [hlen, List.drop_length]
    rfl

theorem length_rotateRight {α : Type*} (l : List α) :
    (rotateRight l).length = l.length := by
  rw [rotateRight_eq_rotate, List.length_rotate]

theorem iterate_rotateRight {α : Type*} (l : List α) (k : Nat) :
    rotateRight^[k] l = l.rotate ((l.length - 1) * k) := by
  induction k with
  | zero => simp
  | succ k ih =>
    rw [Function.iterate_succ_apply', ih, rotateRight_eq_rotate,
      List.length_rotate, List.rotate_rotate, Nat.mul_succ]

theorem length_iterate_rotateRight {α : Type*} (l : List α) (k : Nat) :
    (rotateRight^[k] l).length = l.length := by
  rw [iterate_rotateRight, List.length_rotate]

theorem iterate_rotateRight_perm {α : Type*} (l : List α) (k : Nat) :
    (rotateRight^[k] l).Perm l := by
  rw [iterate_rotateRight]; exact List.rotate_perm l _

/-! ## Shape of the generated rounds -/

theorem rrLoop_length {α : Type*} (n : Nat) (fixed : α) (K : Nat) (o : List α) :
    (rrLoop n fixed K o).length = K := by
  induction K generalizing o with
  | zero => rfl
  | succ k ih => simp [rrLoop, ih]

theorem rrLoop_getElem {α : Type*} (n : Nat) (fixed : α) (K : Nat)
    (o : List α) (k : Nat) (hk : k < K) (d : List (α × α)) :
    (rrLoop n fixed K o).getD k d = roundPairs n fixed (rotateRight^[k] o) := by
  induction K generalizing o k with
  | zero => omega
  | succ K ih =>
    cases k with
    | zero => rfl
    | succ k =>
      have := ih (rotateRight o) k (by omega)
      rw [rrLoop]
      simpa [Function.iterate_succ_apply] using this

theorem roundPairs_length {α : Type*} {n : Nat} (fixed : α) {o : List α}
    (hn : o.length + 1 = n) : (roundPairs n fixed o).length = n / 2 := by
  simp only [roundPairs, List.length_zip, List.length_take, List.length_reverse,
    List.length_drop, List.length_cons, hn]
  omega

theorem round_robin_pairings_cons {α : Type*} (fixed : α) (o : List α) :
    round_robin_pairings (fixed :: o) =
      some (rrLoop (o.length + 1) fixed o.length o) := rfl

/-- The `i`-th pairing of a round built from the lineup `fixed :: o` of
length `n` pairs the lineup's `i`-th entry with its `(n-1-i)`-th entry. -/
theorem roundPairs_getD {α : Type*} {n : Nat} (fixed : α) {o : List α}
    (hn : o.length + 1 = n) (i : Nat) (hi : i < n / 2) (d : α × α) :
    (roundPairs n fixed o).getD i d =
      ((fixed :: o).getD i d.1, (fixed :: o).getD (n - 1 - i) d.2) := by
  have hslen : (fixed :: o).length = n := by simp [hn]
  have hlen : (roundPairs n fixed o).length = n / 2 := roundPairs_length fixed hn
  have hi1 : i < (roundPairs n fixed o).length := by omega
  have hi2 : i < n := by omega
  have hi3 : n - 1 - i < n := by omega
  rw [List.getD_eq_getElem _ _ hi1, List.getD_eq_getElem _ _ (by omega : i < (fixed :: o).length),
    List.getD_eq_getElem _ _ (by omega : n - 1 - i < (fixed :: o).length)]
  simp only [roundPairs]
  rw [List.getElem_zip, List.getElem_take, List.getElem_reverse, List.getElem_drop]
  congr 1
  congr 1
  simp only [List.length_drop, hslen]
  omega

/-- Every pairing in a round over a duplicate-free lineup has two distinct
components. -/
theorem roundPairs_ne {α : Type*} {n : Nat} {fixed : α} {o : List α}
    (hn : o.length + 1 = n) (hnd : (fixed :: o).Nodup) :
    ∀ p ∈ roundPairs n fixed o, p.1 ≠ p.2 := by
  intro p hp
  obtain ⟨i, hi, hip⟩ := List.mem_iff_getElem.mp hp
  have hlen : (roundPairs n fixed o).length = n / 2 := roundPairs_length fixed hn
  have hi2 : i < n / 2 := by omega
  have hgd := roundPairs_getD fixed hn i hi2 p
  rw [List.getD_eq_getElem _ _ hi, hip] at hgd
  have hslen : (fixed :: o).length = n := by simp [hn]
  have h1 : i < (fixed :: o).length := by omega
  have h2 : n - 1 - i < (fixed :: o).length := by omega
  rw [List.getD_eq_getElem _ _ h1, List.getD_eq_getElem _ _ h2] at hgd
  intro hcontra
  rw [hgd] at hcontra
  simp only at hcontra
  rw [hnd.getElem_inj_iff] at hcontra
  omega

theorem zip_take_self {α β : Type*} (l : List α) (r : List β) :
    l.zip r = l.zip (r.take l.length) := by
  induction l generalizing r with
  | nil => simp
  | cons x xs ih =>
    cases r with
    | nil => simp
    | cons y ys => simpa using ih ys

theorem roundPairs_map_fst {α : Type*} {n : Nat} (fixed : α) {o : List α}
    (hn : o.length + 1 = n) :
    (roundPairs n fixed o).map Prod.fst = (fixed :: o).take (n / 2) := by
  apply List.map_fst_zip
  simp only [List.length_take, List.length_reverse, List.length_drop,
    List.length_cons, hn]
  omega

theorem roundPairs_map_snd_even {α : Type*} {n : Nat} (fixed : α) {o : List α}
    (hn : o.length + 1 = n) (he : n % 2 = 0) :
    (roundPairs n fixed o).map Prod.snd = ((fixed :: o).drop (n / 2)).reverse := by
  apply List.map_snd_zip
  simp only [List.length_take, List.length_reverse, List.length_drop,
    List.length_cons, hn]
  omega

theorem roundPairs_map_snd_odd {α : Type*} {n : Nat} (fixed : α) {o : List α}
    (hn : o.length + 1 = n) (ho : n % 2 = 1) :
    (roundPairs n fixed o).map Prod.snd =
      ((fixed :: o).drop (n / 2)).reverse.take (n / 2) := by
  have hlt : ((fixed :: o).take (n / 2)).length = n / 2 := by
    simp only [List.length_take, List.length_cons, hn]; omega
  rw [roundPairs, zip_take_self, hlt]
  apply List.map_snd_zip
  simp only [List.length_take, List.length_reverse, List.length_drop,
    List.length_cons, hn, hlt]
  omega

theorem roundPlayers_perm_append {α : Type*} (rnd : List (α × α)) :
    (roundPlayers rnd).Perm (rnd.map Prod.fst ++ rnd.map Prod.snd) := by
  induction rnd with
  | nil => simp [roundPlayers]
  | cons p l ih =>
    have h1 : roundPlayers (p :: l) = p.1 :: p.2 :: roundPlayers l := rfl
    rw [h1]
    exact List.Perm.cons p.1 ((ih.cons p.2).trans List.perm_middle.symm)

/-- For an even lineup, the players of the round are exactly the lineup. -/
theorem roundPlayers_perm_even {α : Type*} {n : Nat} (fixed : α) {o : List α}
    (hn : o.length + 1 = n) (he : n % 2 = 0) :
    (roundPlayers (roundPairs n fixed o)).Perm (fixed :: o) := by
  refine (roundPlayers_perm_append _).trans ?_
  rw [roundPairs_map_fst fixed hn, roundPairs_map_snd_even fixed hn he]
  refine (List.Perm.append_left _ (List.reverse_perm _)).trans ?_
  rw [List.take_append_drop]

theorem roundPairs_mem_comp {α : Type*} {n : Nat} {fixed : α} {o : List α} :
    ∀ p ∈ roundPairs n fixed o, p.1 ∈ fixed :: o ∧ p.2 ∈ fixed :: o := by
  intro p hp
  obtain ⟨a, b⟩ := p
  have := List.of_mem_zip hp
  refine ⟨List.mem_of_mem_take this.1, ?_⟩
  have hb := this.2
  rw [List.mem_reverse] at hb
  exact List.mem_of_mem_drop hb

theorem countP_pair_or {α : Type*} [DecidableEq α] (x : α) (l : List (α × α))
    (h : ∀ p ∈ l, p.1 ≠ p.2) :
    l.countP (fun p => decide (p.1 = x ∨ p.2 = x)) =
      (l.map Prod.fst).count x + (l.map Prod.snd).count x := by
  induction l with
  | nil => simp
  | cons p l ih =>
    have hp := h p (List.mem_cons_self p l)
    have hrest : ∀ q ∈ l, q.1 ≠ q.2 := fun q hq => h q (List.mem_cons_of_mem p hq)
    simp only [List.countP_cons, List.map_cons, List.count_cons, ih hrest,
      beq_iff_eq]
    by_cases h1 : p.1 = x <;> by_cases h2 : p.2 = x
    · exact absurd (h1.trans h2.symm) hp
    all_goals simp [h1, h2]
    all_goals omega

/-- Over an even, duplicate-free lineup, every lineup member sits in exactly
one pairing of the round. -/
theorem roundPairs_countP_player {α : Type*} [DecidableEq α] {n : Nat}
    {fixed : α} {o : List α} (hn : o.length + 1 = n) (he : n % 2 = 0)
    (hnd : (fixed :: o).Nodup) (x : α) (hx : x ∈ fixed :: o) :
    (roundPairs n fixed o).countP (fun p => decide (p.1 = x ∨ p.2 = x)) = 1 := by
  rw [countP_pair_or x _ (roundPairs_ne hn hnd), roundPairs_map_fst fixed hn,
    roundPairs_map_snd_even fixed hn he, ← List.count_append]
  have hperm :
      ((fixed :: o).take (n / 2) ++ ((fixed :: o).drop (n / 2)).reverse).Perm
        (fixed :: o) := by
    refine (List.Perm.append_left _ (List.reverse_perm _)).trans ?_
    rw [List.take_append_drop]
  rw [hperm.count_eq]
  exact List.count_eq_one_of_mem hnd hx

/-! ## Modular arithmetic helpers for the circle method -/

theorem mod_eq_of_modEq {m x r : Nat} (h : x ≡ r [MOD m]) (hr : r < m) :
    x % m = r := by
  have := h
  unfold Nat.ModEq at this
  rw [this, Nat.mod_eq_of_lt hr]

theorem mod_char {m x r : Nat} (hm : 0 < m) (h : x % m = r) (hx : x < 2 * m) :
    x = r ∨ x = r + m := by
  rcases Nat.lt_or_ge x m with hlt | hge
  · left
    rw [Nat.mod_eq_of_lt hlt] at h
    omega
  · right
    rw [Nat.mod_eq_sub_mod hge, Nat.mod_eq_of_lt (by omega)] at h
    omega

/-- Applying the inverse shift `+ k (mod m)` and then the forward shift
`+ (m-1)·k (mod m)` of the round-`k` lineup recovers the position. -/
theorem shift_unshift {m : Nat} (hm : 0 < m) (k p : Nat) (hp : p < m) :
    ((p + k) % m + (m - 1) * k) % m = p := by
  have h1 : (p + k) % m + (m - 1) * k ≡ (p + k) + (m - 1) * k [MOD m] :=
    Nat.ModEq.add_right _ (Nat.mod_modEq _ _)
  obtain ⟨m1, rfl⟩ : ∃ m1, m = m1 + 1 := ⟨m - 1, by omega⟩
  have h3 : (p + k) + (m1 + 1 - 1) * k = p + (m1 + 1) * k := by
    simp only [Nat.add_sub_cancel]; ring
  have h4 : p + (m1 + 1) * k ≡ p [MOD (m1 + 1)] := by
    unfold Nat.ModEq
    rw [Nat.add_mul_mod_self_left]
  exact mod_eq_of_modEq (h1.trans (h3 ▸ h4)) hp

/-! ## The canonical schedule over positions

For the combinatorial "every pair exactly once" argument the players are
first taken to be the canonical distinct labels `0, 1, ..., n-1`
(`0 :: range' 1 (n-1)`), and the result is transported to arbitrary
duplicate-free labels through `List.map` naturality afterwards. -/

theorem canon_o_getD {m : Nat} (hm : 0 < m) (k t : Nat) (ht : t < m) (d : Nat) :
    (rotateRight^[k] (List.range' 1 m)).getD t d =
      1 + (t + (m - 1) * k) % m := by
  have hlen : (List.range' 1 m).length = m := by simp
  have hrlen : ((List.range' 1 m).rotate ((m - 1) * k)).length = m := by
    rw [List.length_rotate, hlen]
  rw [iterate_rotateRight, hlen, List.getD_eq_getElem _ _ (by omega),
    List.getElem_rotate]
  rw [List.getElem_range']
  rw [hlen]
  ring

/-- Round `m - v` pairs the fixed player `0` with the player labelled `v`,
in its first pairing: existence of every pair involving the fixed player. -/
theorem canon_pair_fixed {n m : Nat} (hm : m + 1 = n) (he : n % 2 = 0)
    (v : Nat) (hv1 : 1 ≤ v) (hv2 : v ≤ m) (d : Nat × Nat) :
    (roundPairs n 0 (rotateRight^[m - v] (List.range' 1 m))).getD 0 d =
      (0, v) := by
  have hm0 : 0 < m := by omega
  have hlen : (rotateRight^[m - v] (List.range' 1 m)).length = m := by
    rw [length_iterate_rotateRight]; simp
  have hn : (rotateRight^[m - v] (List.range' 1 m)).length + 1 = n := by omega
  have hhalf : 0 < n / 2 := by omega
  rw [roundPairs_getD 0 hn 0 hhalf d]
  have hfst : ((0 : Nat) :: rotateRight^[m - v] (List.range' 1 m)).getD 0 d.1 = 0 := rfl
  rw [hfst]
  have hidx : n - 1 - 0 = (m - 1) + 1 := by omega
  rw [hidx, List.getD_cons_succ]
  rw [canon_o_getD hm0 (m - v) (m - 1) (by omega) d.2]
  have hkey : (m - 1) + (m - 1) * (m - v) = (m - 1) * (m - v + 1) := by
    rw [Nat.mul_succ]; omega
  rw [hkey]
  have hmod : (m - 1) * (m - v + 1) % m = v - 1 := by
    obtain ⟨w, rfl⟩ : ∃ w, v = w + 1 := ⟨v - 1, by omega⟩
    obtain ⟨s, rfl⟩ : ∃ s, m = s + (w + 1) := ⟨m - (w + 1), by omega⟩
    have e1 : s + (w + 1) - 1 = s + w := by omega
    have e2 : s + (w + 1) - (w + 1) = s := by omega
    rw [e1, e2]
    have hexp : (s + w) * (s + 1) = (s + (w + 1)) * s + w := by ring
    rw [hexp, Nat.mul_add_mod, Nat.mod_eq_of_lt (by omega)]
    omega
  rw [hmod]
  have hfin : 1 + (v - 1) = v := by omega
  rw [hfin]

/-- Every pair of two non-fixed players `u < v` occurs in some round, at a
pairing index below `n / 2`: the circle method's shifted-sum argument.  The
round is `k` with `2k ≡ -(u+v) (mod m)`, computed through the inverse
`(m+1)/2` of `2` modulo the odd `m`. -/
theorem canon_pair_others {n m : Nat} (hm : m + 1 = n) (he : n % 2 = 0)
    (u v : Nat) (h1 : 1 ≤ u) (huv : u < v) (hv : v ≤ m) (d : Nat × Nat) :
    ∃ k, k < m ∧ ∃ i, i < n / 2 ∧
      ((roundPairs n 0 (rotateRight^[k] (List.range' 1 m))).getD i d = (u, v) ∨
       (roundPairs n 0 (rotateRight^[k] (List.range' 1 m))).getD i d = (v, u)) := by
  have hm2 : 2 ≤ m := by omega
  have hmodd : m % 2 = 1 := by omega
  obtain ⟨k, hk⟩ : ∃ k, k = ((m + 1) / 2 * (2 * m - (u + v))) % m := ⟨_, rfl⟩
  have hkm : k < m := by rw [hk]; exact Nat.mod_lt _ (by omega)
  have h2k : 2 * k ≡ 2 * m - (u + v) [MOD m] := by
    have h2m : 2 * ((m + 1) / 2) = m + 1 := by omega
    have s1 : 2 * k ≡ 2 * ((m + 1) / 2 * (2 * m - (u + v))) [MOD m] := by
      rw [hk]
      exact Nat.ModEq.mul_left 2 (Nat.mod_modEq _ _)
    have s2 : 2 * ((m + 1) / 2 * (2 * m - (u + v))) =
        m * (2 * m - (u + v)) + (2 * m - (u + v)) := by
      rw [← Nat.mul_assoc, h2m]; ring
    have s3 : m * (2 * m - (u + v)) + (2 * m - (u + v)) ≡
        2 * m - (u + v) [MOD m] := by
      unfold Nat.ModEq
      rw [Nat.mul_add_mod]
    exact s1.trans (s2 ▸ s3)
  obtain ⟨a, ha⟩ : ∃ a, a = (u - 1 + k) % m := ⟨_, rfl⟩
  obtain ⟨b, hb⟩ : ∃ b, b = (v - 1 + k) % m := ⟨_, rfl⟩
  have ham : a < m := by rw [ha]; exact Nat.mod_lt _ (by omega)
  have hbm : b < m := by rw [hb]; exact Nat.mod_lt _ (by omega)
  have hab_ne : a ≠ b := by
    intro hcontra
    have heq : u - 1 + k ≡ v - 1 + k [MOD m] := by
      unfold Nat.ModEq
      rw [← ha, ← hb, hcontra]
    have huv' : u - 1 ≡ v - 1 [MOD m] := heq.add_right_cancel' k
    have hmm : (u - 1) % m = (v - 1) % m := huv'
    rw [Nat.mod_eq_of_lt (by omega), Nat.mod_eq_of_lt (by omega)] at hmm
    omega
  have hsum : a + b = m - 2 := by
    have s1 : a + b ≡ (u - 1 + k) + (v - 1 + k) [MOD m] := by
      rw [ha, hb]
      exact Nat.ModEq.add (Nat.mod_modEq _ _) (Nat.mod_modEq _ _)
    have s2 : (u - 1 + k) + (v - 1 + k) = (u + v - 2) + 2 * k := by omega
    have s3 : (u + v - 2) + 2 * k ≡ (u + v - 2) + (2 * m - (u + v)) [MOD m] :=
      Nat.ModEq.add_left _ h2k
    have s4 : (u + v - 2) + (2 * m - (u + v)) = m + (m - 2) := by omega
    have s5 : m + (m - 2) ≡ m - 2 [MOD m] := by
      unfold Nat.ModEq
      rw [Nat.add_mod_left]
    have hmod : (a + b) % m = m - 2 :=
      mod_eq_of_modEq ((s1.trans (s2 ▸ (s3.trans (s4 ▸ s5))))) (by omega)
    rcases mod_char (by omega) hmod (by omega) with hc | hc
    · exact hc
    · omega
  have hu_pos : u - 1 < m := by omega
  have hv_pos : v - 1 < m := by omega
  have hlen : (rotateRight^[k] (List.range' 1 m)).length = m := by
    rw [length_iterate_rotateRight]; simp
  have hn : (rotateRight^[k] (List.range' 1 m)).length + 1 = n := by omega
  rcases Nat.lt_or_ge a b with hab | hab
  · -- `a < b`: the pairing at index `a + 1` is `(u, v)`
    refine ⟨k, hkm, a + 1, by omega, Or.inl ?_⟩
    rw [roundPairs_getD 0 hn (a + 1) (by omega) d]
    rw [List.getD_cons_succ]
    have hidx : n - 1 - (a + 1) = b + 1 := by omega
    rw [hidx, List.getD_cons_succ]
    rw [canon_o_getD (by omega) k a (by omega) d.1,
      canon_o_getD (by omega) k b (by omega) d.2]
    rw [ha, shift_unshift (by omega) k (u - 1) hu_pos]
    rw [hb, shift_unshift (by omega) k (v - 1) hv_pos]
    have e1 : 1 + (u - 1) = u := by omega
    rw [e1]
    have e2 : 1 + (v - 1) = v := by omega
    rw [e2]
  · -- `b < a`: the pairing at index `b + 1` is `(v, u)`
    have hba : b < a := by omega
    refine ⟨k, hkm, b + 1, by omega, Or.inr ?_⟩
    rw [roundPairs_getD 0 hn (b + 1) (by omega) d]
    rw [List.getD_cons_succ]
    have hidx : n - 1 - (b + 1) = a + 1 := by omega
    rw [hidx, List.getD_cons_succ]
    rw [canon_o_getD (by omega) k b (by omega) d.1,
      canon_o_getD (by omega) k a (by omega) d.2]
    rw [hb, shift_unshift (by omega) k (v - 1) hv_pos]
    rw [ha, shift_unshift (by omega) k (u - 1) hu_pos]
    have e1 : 1 + (v - 1) = v := by omega
    rw [e1]
    have e2 : 1 + (u - 1) = u := by omega
    rw [e2]

/-! ## Counting all pairs ##

Every distinct unordered pair of positions occurs in the schedule; since the
schedule contains exactly `C(n,2)` pairings, each pair occurs exactly once. -/

theorem countP_eq_one_of_nodup {α : Type*} [DecidableEq α] {l : List α}
    (h : l.Nodup) {a : α} (ha : a ∈ l) :
    l.countP (fun x => decide (x = a)) = 1 := by
  induction l with
  | nil => cases ha
  | cons x xs ih =>
    rw [List.countP_cons]
    rcases List.mem_cons.mp ha with rfl | hmem
    · have hx : a ∉ xs := (List.nodup_cons.mp h).1
      have hz : xs.countP (fun y => decide (y = a)) = 0 := by
        rw [List.countP_eq_zero]
        intro b hb
        simp only [decide_eq_true_eq]
        intro hbx
        exact hx (hbx ▸ hb)
      simp [hz]
    · have hne : x ≠ a := by
        intro hxa
        exact (List.nodup_cons.mp h).1 (hxa ▸ hmem)
      rw [ih (List.nodup_cons.mp h).2 hmem]
      simp [hne]

theorem mem_allP {n u v : Nat} : (u, v) ∈ allP n ↔ u < v ∧ v < n := by
  simp only [allP, List.mem_flatMap, List.mem_map, List.mem_range,
    Prod.mk.injEq]
  constructor
  · rintro ⟨w, hw, z, hz, hzu, hwv⟩
    omega
  · rintro ⟨huv, hv⟩
    exact ⟨v, hv, u, huv, rfl, rfl⟩

theorem nodup_allP (n : Nat) : (allP n).Nodup := by
  rw [allP, List.nodup_flatMap]
  constructor
  · intro v hv
    exact (List.nodup_range v).map (fun a b hab => congrArg Prod.fst hab)
  · refine (List.pairwise_lt_range n).imp ?_
    intro a b hab p hp hq
    simp only [List.mem_map, List.mem_range] at hp hq
    obtain ⟨w, hw, hwp⟩ := hp
    obtain ⟨z, hz, hzp⟩ := hq
    have : a = b := by
      have h1 : p.2 = a := by rw [← hwp]
      have h2 : p.2 = b := by rw [← hzp]
      omega
    omega

theorem length_allP (n : Nat) : (allP n).length = n * (n - 1) / 2 := by
  induction n with
  | zero => rfl
  | succ n ih =>
    have hsplit : allP (n + 1) = allP n ++ (List.range n).map (fun u => (u, n)) := by
      rw [allP, allP, List.range_succ, List.flatMap_append]
      simp
    rw [hsplit, List.length_append, ih, List.length_map, List.length_range]
    have hkey : (n + 1) * n = n * (n - 1) + 2 * n := by
      cases n with
      | zero => rfl
      | succ s =>
        simp only [Nat.succ_sub_one]
        ring
    have heven : n * (n - 1) % 2 = 0 := by
      cases n with
      | zero => rfl
      | succ s =>
        simp only [Nat.succ_sub_one]
        have hev := Nat.even_mul_succ_self s
        rw [Nat.even_iff] at hev
        rw [Nat.mul_comm]
        exact hev
    simp only [Nat.add_sub_cancel]
    omega

theorem rrLoop_flatten_length {α : Type*} (n : Nat) (fixed : α) (K : Nat)
    (o : List α) (hn : o.length + 1 = n) :
    (rrLoop n fixed K o).flatten.length = K * (n / 2) := by
  induction K generalizing o with
  | zero => simp [rrLoop]
  | succ k ih =>
    rw [rrLoop, List.flatten_cons, List.length_append,
      roundPairs_length fixed hn,
      ih (rotateRight o) (by rw [length_rotateRight]; exact hn)]
    ring

theorem mem_rrLoop {α : Type*} {n K : Nat} {fixed : α} {o : List α}
    {r : List (α × α)} (hr : r ∈ rrLoop n fixed K o) :
    ∃ k, k < K ∧ r = roundPairs n fixed (rotateRight^[k] o) := by
  obtain ⟨k, hk, hkr⟩ := List.mem_iff_getElem.mp hr
  rw [rrLoop_length] at hk
  refine ⟨k, hk, ?_⟩
  have hk2 : k < (rrLoop n fixed K o).length := by rw [rrLoop_length]; exact hk
  rw [← hkr, ← List.getD_eq_getElem _ [] hk2,
    rrLoop_getElem n fixed K o k hk []]

theorem canon_pair_mem {n m : Nat} (hm : m + 1 = n) (he : n % 2 = 0)
    (u v : Nat) (huv : u < v) (hv : v < n) :
    (u, v) ∈ (rrLoop n 0 m (List.range' 1 m)).flatten.map sortPair := by
  have hm0 : 0 < m := by omega
  have hget : ∃ k, k < m ∧ ∃ i, i < n / 2 ∧
      ((roundPairs n 0 (rotateRight^[k] (List.range' 1 m))).getD i ((0, 0) : Nat × Nat) = (u, v) ∨
       (roundPairs n 0 (rotateRight^[k] (List.range' 1 m))).getD i ((0, 0) : Nat × Nat) = (v, u)) := by
    rcases Nat.eq_zero_or_pos u with hu0 | hu1
    · subst hu0
      exact ⟨m - v, by omega, 0, by omega,
        Or.inl (canon_pair_fixed hm he v (by omega) (by omega) _)⟩
    · exact canon_pair_others hm he u v hu1 huv (by omega) _
  obtain ⟨k, hk, i, hi, hpair⟩ := hget
  have holen : (rotateRight^[k] (List.range' 1 m)).length + 1 = n := by
    rw [length_iterate_rotateRight]; simp; omega
  have hrl : (rrLoop n 0 m (List.range' 1 m)).getD k [] =
      roundPairs n 0 (rotateRight^[k] (List.range' 1 m)) :=
    rrLoop_getElem n 0 m _ k hk []
  have hkl : k < (rrLoop n 0 m (List.range' 1 m)).length := by
    rw [rrLoop_length]; exact hk
  have hrmem : roundPairs n 0 (rotateRight^[k] (List.range' 1 m)) ∈
      rrLoop n 0 m (List.range' 1 m) := by
    rw [← hrl, List.getD_eq_getElem _ _ hkl]
    exact List.getElem_mem hkl
  have hil : i < (roundPairs n 0 (rotateRight^[k] (List.range' 1 m))).length := by
    rw [roundPairs_length 0 holen]; exact hi
  have hpmem : (roundPairs n 0 (rotateRight^[k] (List.range' 1 m))).getD i ((0, 0) : Nat × Nat) ∈
      roundPairs n 0 (rotateRight^[k] (List.range' 1 m)) := by
    rw [List.getD_eq_getElem _ _ hil]
    exact List.getElem_mem hil
  have hfl : (roundPairs n 0 (rotateRight^[k] (List.range' 1 m))).getD i ((0, 0) : Nat × Nat) ∈
      (rrLoop n 0 m (List.range' 1 m)).flatten :=
    List.mem_flatten.mpr ⟨_, hrmem, hpmem⟩
  refine List.mem_map.mpr ⟨_, hfl, ?_⟩
  rcases hpair with hp | hp <;> rw [hp] <;> simp [sortPair] <;> omega

/-- Canonical form of the "every unordered pair exactly once" property:
over the positions `0, ..., n-1` the flattened schedule contains exactly one
pairing matching `{u, v}` for each `u < v < n`. -/
theorem canon_countP {n m : Nat} (hm : m + 1 = n) (he : n % 2 = 0)
    (u v : Nat) (huv : u < v) (hv : v < n) :
    (rrLoop n 0 m (List.range' 1 m)).flatten.countP
      (fun p => decide ((p.1 = u ∧ p.2 = v) ∨ (p.1 = v ∧ p.2 = u))) = 1 := by
  have hm0 : 0 < m := by omega
  have hsub : allP n ⊆ (rrLoop n 0 m (List.range' 1 m)).flatten.map sortPair := by
    intro p hp
    obtain ⟨p1, p2⟩ := p
    obtain ⟨hp1, hp2⟩ := mem_allP.mp hp
    exact canon_pair_mem hm he p1 p2 hp1 hp2
  have holen : (List.range' 1 m).length + 1 = n := by simp; omega
  have hlenM : ((rrLoop n 0 m (List.range' 1 m)).flatten.map sortPair).length =
      m * (n / 2) := by
    rw [List.length_map, rrLoop_flatten_length n 0 m _ holen]
  have harith : m * (n / 2) = n * (n - 1) / 2 := by
    obtain ⟨t, rfl⟩ : ∃ t, n = 2 * t := ⟨n / 2, by omega⟩
    have hm' : m = 2 * t - 1 := by omega
    have ht : 2 * t / 2 = t := by omega
    rw [hm', ht]
    have hr : 2 * t * (2 * t - 1) = 2 * ((2 * t - 1) * t) := by ring
    rw [hr, Nat.mul_div_cancel_left _ (by norm_num)]
  have hperm : (allP n).Perm
      ((rrLoop n 0 m (List.range' 1 m)).flatten.map sortPair) := by
    refine (List.subperm_of_subset (nodup_allP n) hsub).perm_of_length_le ?_
    rw [hlenM, harith, length_allP]
  have h1 : (allP n).countP (fun r => decide (r = (u, v))) = 1 :=
    countP_eq_one_of_nodup (nodup_allP n) (mem_allP.mpr ⟨huv, hv⟩)
  have h2 := (hperm.countP_eq (fun r => decide (r = (u, v)))).symm.trans h1
  rw [List.countP_map] at h2
  refine (List.countP_congr ?_).trans h2
  intro p hp
  simp only [Function.comp, sortPair, Prod.mk.injEq, decide_eq_true_eq]
  omega

/-! ## Naturality: the pairing generator commutes with relabelling -/

theorem rotateRight_map {α β : Type*} (f : α → β) (l : List α) :
    rotateRight (l.map f) = (rotateRight l).map f := by
  rw [rotateRight_eq_rotate, rotateRight_eq_rotate, List.length_map,
    List.map_rotate]

theorem roundPairs_map {α β : Type*} (f : α → β) (n : Nat) (fixed : α)
    (o : List α) :
    roundPairs n (f fixed) (o.map f) = (roundPairs n fixed o).map (Prod.map f f) := by
  simp only [roundPairs]
  rw [← List.map_cons, ← List.map_take, ← List.map_drop, ← List.map_reverse,
    List.zip_map]

theorem rrLoop_map {α β : Type*} (f : α → β) (n : Nat) (fixed : α) (K : Nat)
    (o : List α) :
    rrLoop n (f fixed) K (o.map f) =
      (rrLoop n fixed K o).map (List.map (Prod.map f f)) := by
  induction K generalizing o with
  | zero => rfl
  | succ k ih =>
    rw [rrLoop, rrLoop, List.map_cons, roundPairs_map, rotateRight_map, ih]

theorem round_robin_pairings_map {α β : Type*} (f : α → β) (players : List α) :
    round_robin_pairings (players.map f) =
      (round_robin_pairings players).map (List.map (List.map (Prod.map f f))) := by
  cases players with
  | nil => rfl
  | cons fixed o =>
    rw [List.map_cons, round_robin_pairings_cons, round_robin_pairings_cons,
      List.length_map, rrLoop_map]
    rfl

theorem players_eq_map_getD (players : List String) :
    players = (List.range players.length).map (fun i => players.getD i "") := by
  apply List.ext_getElem
  · simp
  · intro i h1 h2
    simp only [List.getElem_map, List.getElem_range]
    exact (List.getD_eq_getElem _ _ h1).symm

theorem mem_canon_lineup_lt {n m : Nat} (hm : m + 1 = n) {k x : Nat}
    (hx : x ∈ (0 : Nat) :: rotateRight^[k] (List.range' 1 m)) : x < n := by
  rcases List.mem_cons.mp hx with rfl | hmem
  · omega
  · have hx2 := (iterate_rotateRight_perm (List.range' 1 m) k).mem_iff.mp hmem
    rw [List.mem_range'_1] at hx2
    omega

theorem canon_flatten_lt {n m : Nat} (hm : m + 1 = n) :
    ∀ p ∈ (rrLoop n 0 m (List.range' 1 m)).flatten, p.1 < n ∧ p.2 < n := by
  intro p hp
  obtain ⟨r, hr, hpr⟩ := List.mem_flatten.mp hp
  obtain ⟨k, hk, rfl⟩ := mem_rrLoop hr
  have hcomp := roundPairs_mem_comp p hpr
  exact ⟨mem_canon_lineup_lt hm hcomp.1, mem_canon_lineup_lt hm hcomp.2⟩

/-! ## The all-pairs property for arbitrary distinct labels -/

theorem rrp_pair_count (players : List String) (hlen : 2 ≤ players.length)
    (he : players.length % 2 = 0) (hnd : players.Nodup)
    (rounds : List (List (String × String)))
    (hr : round_robin_pairings players = some rounds)
    (x y : String) (hx : x ∈ players) (hy : y ∈ players) (hxy : x ≠ y) :
    rounds.flatten.countP
      (fun p => decide ((p.1 = x ∧ p.2 = y) ∨ (p.1 = y ∧ p.2 = x))) = 1 := by
  obtain ⟨m, hm⟩ : ∃ m, players.length = m + 1 := ⟨players.length - 1, by omega⟩
  have hnat := round_robin_pairings_map (fun i => players.getD i "")
    (List.range players.length)
  rw [← players_eq_map_getD players] at hnat
  have hrange : List.range (m + 1) = 0 :: List.range' 1 m := by
    rw [List.range_eq_range']
    exact List.range'_succ 0 m 1
  have hcanon : round_robin_pairings (List.range (m + 1)) =
      some (rrLoop (m + 1) 0 m (List.range' 1 m)) := by
    rw [hrange, round_robin_pairings_cons]
    simp
  rw [hm, hcanon, hr] at hnat
  simp only [Option.map_some'] at hnat
  have hrounds := Option.some.inj hnat
  subst hrounds
  rw [← List.map_flatten, List.countP_map]
  obtain ⟨u, hu, hux⟩ := List.mem_iff_getElem.mp hx
  obtain ⟨v, hv, hvy⟩ := List.mem_iff_getElem.mp hy
  have huvne : u ≠ v := by
    intro h
    subst h
    exact hxy (hux.symm.trans hvy)
  have hgux : players.getD u "" = x := by
    rw [List.getD_eq_getElem _ _ hu]; exact hux
  have hgvy : players.getD v "" = y := by
    rw [List.getD_eq_getElem _ _ hv]; exact hvy
  have hinj : ∀ a b : Nat, a < players.length → b < players.length →
      players.getD a "" = players.getD b "" → a = b := by
    intro a b ha hb hg
    rw [List.getD_eq_getElem _ _ ha, List.getD_eq_getElem _ _ hb] at hg
    exact (hnd.getElem_inj_iff).mp hg
  refine (List.countP_congr ?_).trans
    (canon_countP rfl (by omega) (min u v) (max u v) (by omega) (by omega))
  intro p hp
  obtain ⟨hp1, hp2⟩ := canon_flatten_lt rfl p hp
  simp only [Function.comp_apply, Prod.map_fst, Prod.map_snd,
    decide_eq_true_eq]
  have ex1 : players.getD p.1 "" = x ↔ p.1 = u :=
    ⟨fun hh => hinj p.1 u (by omega) (by omega) (hh.trans hgux.symm),
     fun hh => hh ▸ hgux⟩
  have ey1 : players.getD p.1 "" = y ↔ p.1 = v :=
    ⟨fun hh => hinj p.1 v (by omega) (by omega) (hh.trans hgvy.symm),
     fun hh => hh ▸ hgvy⟩
  have ex2 : players.getD p.2 "" = x ↔ p.2 = u :=
    ⟨fun hh => hinj p.2 u (by omega) (by omega) (hh.trans hgux.symm),
     fun hh => hh ▸ hgux⟩
  have ey2 : players.getD p.2 "" = y ↔ p.2 = v :=
    ⟨fun hh => hinj p.2 v (by omega) (by omega) (hh.trans hgvy.symm),
     fun hh => hh ▸ hgvy⟩
  rw [ex1, ey1, ex2, ey2]
  omega

/-! ## Assembled structure of `round_robin_pairings` -/

theorem rrp_length {α : Type*} {players : List α}
    {rounds : List (List (α × α))} (hne : players ≠ [])
    (hr : round_robin_pairings players = some rounds) :
    rounds.length = players.length - 1 := by
  cases players with
  | nil => exact absurd rfl hne
  | cons f o =>
    rw [round_robin_pairings_cons] at hr
    rw [← Option.some.inj hr, rrLoop_length]
    simp

theorem rrp_mem_round {α : Type*} {players : List α}
    {rounds : List (List (α × α))}
    (hr : round_robin_pairings players = some rounds) :
    ∀ r ∈ rounds, ∃ f o k, players = f :: o ∧ k < o.length ∧
      r = roundPairs players.length f (rotateRight^[k] o) := by
  intro r hrmem
  cases players with
  | nil => cases hr
  | cons f o =>
    rw [round_robin_pairings_cons] at hr
    rw [← Option.some.inj hr] at hrmem
    obtain ⟨k, hk, hkr⟩ := mem_rrLoop hrmem
    exact ⟨f, o, k, rfl, hk, by simpa using hkr⟩

theorem rrp_round_length {α : Type*} {players : List α}
    {rounds : List (List (α × α))}
    (hr : round_robin_pairings players = some rounds) :
    ∀ r ∈ rounds, r.length = players.length / 2 := by
  intro r hrmem
  obtain ⟨f, o, k, hp, hk, hrq⟩ := rrp_mem_round hr r hrmem
  have hlen : (rotateRight^[k] o).length + 1 = players.length := by
    rw [length_iterate_rotateRight, hp]
    simp
  rw [hrq, roundPairs_length f hlen]

theorem rrp_player_count {α : Type*} [DecidableEq α] {players : List α}
    (he : players.length % 2 = 0) (hnd : players.Nodup)
    {rounds : List (List (α × α))}
    (hr : round_robin_pairings players = some rounds) :
    ∀ r ∈ rounds, ∀ x ∈ players,
      r.countP (fun p => decide (p.1 = x ∨ p.2 = x)) = 1 := by
  intro r hrmem x hx
  obtain ⟨f, o, k, hp, hk, hrq⟩ := rrp_mem_round hr r hrmem
  have hlen : (rotateRight^[k] o).length + 1 = players.length := by
    rw [length_iterate_rotateRight, hp]
    simp
  have hperm : (f :: rotateRight^[k] o).Perm players := by
    rw [hp]
    exact List.Perm.cons f (iterate_rotateRight_perm o k)
  rw [hrq]
  exact roundPairs_countP_player hlen he (hperm.symm.nodup hnd) x
    (hperm.mem_iff.mpr hx)

/-- C1.  For every even `N ≥ 2` and every list of `N` distinct player
labels, `round_robin_pairings` returns exactly `N - 1` rounds of exactly
`N / 2` pairings each, every unordered pair of distinct players occurs in
exactly one pairing of the whole schedule, and every player occurs in
exactly one pairing of every round. -/
theorem claim_C1_round_robin_correct (players : List String)
    (hlen : 2 ≤ players.length) (he : players.length % 2 = 0)
    (hnd : players.Nodup) (rounds : List (List (String × String)))
    (hr : round_robin_pairings players = some rounds) :
    rounds.length = players.length - 1 ∧
    (∀ r ∈ rounds, r.length = players.length / 2) ∧
    (∀ x ∈ players, ∀ y ∈ players, x ≠ y →
      rounds.flatten.countP
        (fun p => decide ((p.1 = x ∧ p.2 = y) ∨ (p.1 = y ∧ p.2 = x))) = 1) ∧
    (∀ r ∈ rounds, ∀ x ∈ players,
      r.countP (fun p => decide (p.1 = x ∨ p.2 = x)) = 1) := by
  refine ⟨rrp_length (by intro h; rw [h] at hlen; simp at hlen) hr,
    rrp_round_length hr, ?_, rrp_player_count he hnd hr⟩
  intro x hx y hy hxy
  exact rrp_pair_count players hlen he hnd rounds hr x y hx hy hxy

/-- Witness for C1 at the concrete input `[A, B, C, D]`. -/
theorem claim_C1_round_robin_correct_witness :
    [[("A", "D"), ("B", "C")], [("A", "C"), ("D", "B")],
        [("A", "B"), ("C", "D")]].flatten.countP
      (fun p => decide ((p.1 = "B" ∧ p.2 = "D") ∨ (p.1 = "D" ∧ p.2 = "B"))) = 1 :=
  (claim_C1_round_robin_correct ["A", "B", "C", "D"] (by norm_num) (by norm_num)
      (by decide) [[("A", "D"), ("B", "C")], [("A", "C"), ("D", "B")],
        [("A", "B"), ("C", "D")]] rfl).2.2.1 ("B") (by decide) ("D") (by decide)
    (by decide)

/-- C2.  The concrete scenario `players = [A, B, C, D]`, single round-robin:
three rounds `[(A,D),(B,C)]`, `[(A,C),(D,B)]`, `[(A,B),(C,D)]`, in this
order, with this internal pairing order. -/
theorem claim_C2_concrete_scenario :
    round_robin_pairings ["A", "B", "C", "D"] =
      some [[("A", "D"), ("B", "C")], [("A", "C"), ("D", "B")],
        [("A", "B"), ("C", "D")]] := rfl

/-- C3.  `double_round_robin` doubles the schedule: the first half is the
input unchanged and round `k + length` is round `k` with every pairing's two
elements swapped, in the same internal order. -/
theorem claim_C3_double_round_robin (rounds : List (List (String × String))) :
    (double_round_robin rounds).length = 2 * rounds.length ∧
    (double_round_robin rounds).take rounds.length = rounds ∧
    (∀ k, k < rounds.length →
      (double_round_robin rounds).getD (k + rounds.length) [] =
        (rounds.getD k []).map (fun p => (p.2, p.1))) := by
  refine ⟨?_, ?_, ?_⟩
  · simp only [double_round_robin, List.length_append, List.length_map]
    omega
  · simp only [double_round_robin]
    exact List.take_left rounds _
  · intro k hk
    simp only [double_round_robin]
    have hmlen : (rounds.map (fun rnd => rnd.map (fun p => (p.2, p.1)))).length =
        rounds.length := List.length_map _ _
    have hk2 : k + rounds.length <
        (rounds ++ rounds.map (fun rnd => rnd.map (fun p => (p.2, p.1)))).length := by
      rw [List.length_append, hmlen]
      omega
    rw [List.getD_eq_getElem _ _ hk2,
      List.getElem_append_right (by omega : rounds.length ≤ k + rounds.length)]
    simp only [Nat.add_sub_cancel, List.getElem_map]
    rw [List.getD_eq_getElem _ _ hk]

/-- Witness for C3 at a concrete two-round schedule. -/
theorem claim_C3_double_round_robin_witness :
    (double_round_robin [[("A", "B")], [("A", "C")]]).getD (0 + 2) [] =
      ([[("A", "B")], [("A", "C")]].getD 0 []).map (fun p => (p.2, p.1)) :=
  (claim_C3_double_round_robin [[("A", "B")], [("A", "C")]]).2.2 0 (by norm_num)

/-! ## Odd player counts -/

theorem roundPlayers_length {α : Type*} (rnd : List (α × α)) :
    (roundPlayers rnd).length = 2 * rnd.length := by
  rw [(roundPlayers_perm_append rnd).length_eq, List.length_append,
    List.length_map, List.length_map]
  omega

theorem roundPlayers_subset {α : Type*} {n : Nat} {fixed : α} {o : List α} :
    ∀ x ∈ roundPlayers (roundPairs n fixed o), x ∈ fixed :: o := by
  intro x hx
  rw [roundPlayers, List.mem_flatMap] at hx
  obtain ⟨p, hp, hxp⟩ := hx
  have hcomp := roundPairs_mem_comp p hp
  simp only [List.mem_cons, List.mem_singleton] at hxp
  rcases hxp with rfl | hxp
  · exact hcomp.1
  · rcases hxp with rfl | hfalse
    · exact hcomp.2
    · cases hfalse

/-- For an odd lineup the players of a round are a duplicate-free selection
from the lineup. -/
theorem roundPlayers_nodup_odd {α : Type*} {n : Nat} (fixed : α) {o : List α}
    (hn : o.length + 1 = n) (ho : n % 2 = 1) (hnd : (fixed :: o).Nodup) :
    (roundPlayers (roundPairs n fixed o)).Nodup := by
  have hperm : (roundPlayers (roundPairs n fixed o)).Perm
      ((fixed :: o).take (n / 2) ++ ((fixed :: o).drop (n / 2)).reverse.take (n / 2)) := by
    refine (roundPlayers_perm_append _).trans ?_
    rw [roundPairs_map_fst fixed hn, roundPairs_map_snd_odd fixed hn ho]
  have hbigperm : ((fixed :: o).take (n / 2) ++
      ((fixed :: o).drop (n / 2)).reverse).Perm (fixed :: o) := by
    refine (List.Perm.append_left _ (List.reverse_perm _)).trans ?_
    rw [List.take_append_drop]
  have hbig : ((fixed :: o).take (n / 2) ++
      ((fixed :: o).drop (n / 2)).reverse).Nodup :=
    hbigperm.symm.nodup hnd
  have hsub : ((fixed :: o).take (n / 2) ++
        ((fixed :: o).drop (n / 2)).reverse.take (n / 2)).Sublist
      ((fixed :: o).take (n / 2) ++ ((fixed :: o).drop (n / 2)).reverse) :=
    (List.take_sublist _ _).append_left _
  exact hperm.symm.nodup (hsub.nodup hbig)

theorem exists_unique_absent {α : Type*} [DecidableEq α] {players E : List α}
    (hndP : players.Nodup) (hndE : E.Nodup) (hsub : ∀ x ∈ E, x ∈ players)
    (hlen : E.length + 1 = players.length) :
    ∃ x ∈ players, x ∉ E ∧ ∀ y ∈ players, y ∉ E → y = x := by
  have hsubF : E.toFinset ⊆ players.toFinset := by
    intro a ha
    rw [List.mem_toFinset] at ha ⊢
    exact hsub a ha
  have hcard : (players.toFinset \ E.toFinset).card = 1 := by
    rw [Finset.card_sdiff hsubF, List.toFinset_card_of_nodup hndP,
      List.toFinset_card_of_nodup hndE]
    omega
  obtain ⟨x, hx⟩ := Finset.card_eq_one.mp hcard
  have hxmem : x ∈ players.toFinset \ E.toFinset := by
    rw [hx]
    exact Finset.mem_singleton_self x
  rw [Finset.mem_sdiff] at hxmem
  refine ⟨x, List.mem_toFinset.mp hxmem.1,
    fun hc => hxmem.2 (List.mem_toFinset.mpr hc), ?_⟩
  intro y hy hyE
  have hyD : y ∈ players.toFinset \ E.toFinset :=
    Finset.mem_sdiff.mpr ⟨List.mem_toFinset.mpr hy,
      fun hc => hyE (List.mem_toFinset.mp hc)⟩
  rw [hx, Finset.mem_singleton] at hyD
  exact hyD

/-- For odd `N ≥ 3` and distinct players, every round omits exactly one
player (and contains each of the others exactly once). -/
theorem rrp_round_absent (players : List String)
    (hodd : players.length % 2 = 1) (hlen : 3 ≤ players.length)
    (hnd : players.Nodup) (rounds : List (List (String × String)))
    (hr : round_robin_pairings players = some rounds) :
    ∀ r ∈ rounds, (roundPlayers r).Nodup ∧
      ∃ x ∈ players, x ∉ roundPlayers r ∧
        ∀ y ∈ players, y ∉ roundPlayers r → y = x := by
  intro r hrmem
  obtain ⟨f, o, k, hp, hk, hrq⟩ := rrp_mem_round hr r hrmem
  have hn : (rotateRight^[k] o).length + 1 = players.length := by
    rw [length_iterate_rotateRight, hp]
    simp
  have hperm : (f :: rotateRight^[k] o).Perm players := by
    rw [hp]
    exact List.Perm.cons f (iterate_rotateRight_perm o k)
  have hndl : (f :: rotateRight^[k] o).Nodup := hperm.symm.nodup hnd
  have hndE : (roundPlayers r).Nodup := by
    rw [hrq]
    exact roundPlayers_nodup_odd f hn hodd hndl
  refine ⟨hndE, ?_⟩
  have hsub : ∀ x ∈ roundPlayers r, x ∈ players := by
    intro x hx
    rw [hrq] at hx
    exact hperm.subset (roundPlayers_subset x hx)
  have hElen : (roundPlayers r).length + 1 = players.length := by
    rw [hrq, roundPlayers_length, roundPairs_length f hn]
    omega
  exact exists_unique_absent hnd hndE hsub hElen

/-- C10.  For odd `N ≥ 3` and distinct players the generator still succeeds,
with `N - 1` rounds of `(N-1)/2` pairings; no player occurs twice within a
round, so each round omits exactly one player. -/
theorem claim_C10_odd_count (players : List String)
    (hodd : players.length % 2 = 1) (hlen : 3 ≤ players.length)
    (hnd : players.Nodup) (rounds : List (List (String × String)))
    (hr : round_robin_pairings players = some rounds) :
    rounds.length = players.length - 1 ∧
    (∀ r ∈ rounds, r.length = (players.length - 1) / 2) ∧
    (∀ r ∈ rounds, (roundPlayers r).Nodup) ∧
    (∀ r ∈ rounds, ∃ x ∈ players, x ∉ roundPlayers r ∧
      ∀ y ∈ players, y ∉ roundPlayers r → y = x) := by
  have habs := rrp_round_absent players hodd hlen hnd rounds hr
  refine ⟨rrp_length (by intro h; rw [h] at hlen; simp at hlen) hr, ?_,
    fun r hrm => (habs r hrm).1, fun r hrm => (habs r hrm).2⟩
  intro r hrm
  rw [rrp_round_length hr r hrm]
  omega

/-- Witness for C10 at the concrete input `[A, B, C]` (the generator
returns `[[(A,C)], [(A,B)]]` there). -/
theorem claim_C10_odd_count_witness :
    [[("A", "C")], [("A", "B")]].length = 2 ∧
    (∀ r ∈ [[("A", "C")], [("A", "B")]], r.length = 1) ∧
    (∀ r ∈ [[("A", "C")], [("A", "B")]], (roundPlayers r).Nodup) ∧
    (∀ r ∈ [[("A", "C")], [("A", "B")]], ∃ x ∈ ["A", "B", "C"],
      x ∉ roundPlayers r ∧ ∀ y ∈ ["A", "B", "C"], y ∉ roundPlayers r → y = x) :=
  claim_C10_odd_count ["A", "B", "C"] (by norm_num) (by norm_num) (by decide)
    [[("A", "C")], [("A", "B")]] rfl

/-- C7 fails as stated: on the empty player list the unguarded `players[0]`
raises an `IndexError` (modelled by `none`), so no output — malformed, empty
or otherwise — is produced. -/
theorem claim_C7_counterexample :
    ¬ ∃ out, round_robin_pairings ([] : List String) = some out := by
  rintro ⟨out, h⟩
  simp [round_robin_pairings] at h

/-- C7 as amended: no input validation is performed; a single player yields
empty output, an odd count `≥ 3` yields malformed output (some player is
missing from a round), and only the empty list makes the unguarded indexing
raise. -/
theorem claim_C7_amended_unguarded :
    (round_robin_pairings ([] : List String) = none) ∧
    (∀ a : String, round_robin_pairings [a] = some []) ∧
    (∀ (players : List String) (rounds : List (List (String × String))),
      players.length % 2 = 1 → 3 ≤ players.length → players.Nodup →
      round_robin_pairings players = some rounds →
      ∃ r ∈ rounds, ∃ x ∈ players, x ∉ roundPlayers r) := by
  refine ⟨rfl, fun a => rfl, ?_⟩
  intro players rounds hodd hlen hnd hr
  have hlenR : rounds.length = players.length - 1 :=
    rrp_length (by intro h; rw [h] at hlen; simp at hlen) hr
  cases rounds with
  | nil => simp at hlenR; omega
  | cons r rest =>
    obtain ⟨x, hx, hxabs, _⟩ :=
      (rrp_round_absent players hodd hlen hnd _ hr r (List.mem_cons_self r rest)).2
    exact ⟨r, List.mem_cons_self r rest, x, hx, hxabs⟩

/-- Witness for the amended C7 at the concrete input `[A, B, C]`. -/
theorem claim_C7_amended_unguarded_witness :
    ∃ r ∈ [[("A", "C")], [("A", "B")]], ∃ x ∈ ["A", "B", "C"],
      x ∉ roundPlayers r :=
  claim_C7_amended_unguarded.2.2 ["A", "B", "C"] [[("A", "C")], [("A", "B")]]
    (by norm_num) (by norm_num) (by decide) rfl

/-! ## The points table -/

/-- C5.  `build_points_df` has one `Round i` row per round, one column per
player in insertion order, every cell the empty string, and the result
depends only on the player list and the round count (not on the pairings
themselves). -/
theorem claim_C5_points_table (players : List String) (num_rounds : Nat) :
    (build_points_df players num_rounds).index =
      (List.range num_rounds).map (fun i => "Round " ++ toString (i + 1)) ∧
    (build_points_df players num_rounds).cols.map (fun c => c.1) = players ∧
    (∀ c ∈ (build_points_df players num_rounds).cols,
      c.2 = List.replicate num_rounds "") ∧
    (∀ rounds1 rounds2 : List (List (String × String)),
      rounds1.length = rounds2.length →
      build_points_df players rounds1.length =
        build_points_df players rounds2.length) := by
  refine ⟨rfl, ?_, ?_, ?_⟩
  · simp only [build_points_df, List.map_map]
    show List.map id players = players
    exact List.map_id players
  · intro c hc
    simp only [build_points_df, List.mem_map] at hc
    obtain ⟨p, hp, hpc⟩ := hc
    rw [← hpc]
  · intro rounds1 rounds2 h
    rw [h]

/-- Witness for C5: the points table is a function of the round count
alone, at two distinct concrete pairing lists of equal length. -/
theorem claim_C5_points_table_witness :
    build_points_df ["A", "B"] ([[("A", "B")]].length) =
      build_points_df ["A", "B"] ([[("B", "A")]].length) :=
  (claim_C5_points_table ["A", "B"] 1).2.2.2 [[("A", "B")]] [[("B", "A")]] rfl

/-! ## The standings sheet -/

/-- C6.  The standings rows are the header `[Player, Total Points]` followed
by one row per player in points-table column order; the row of the player in
0-based column position `i` holds the player's name and the formula
`=SUM(Points!L2:L(R+1))` with `L` the column letter of spreadsheet column
`i + 2` and `R` the round count.  The last conjunct records that the Points
sheet's header row is `"" :: players`, so that spreadsheet column `i + 2` is
exactly the column where that player's name sits (players start at column
B). -/
theorem claim_C6_standings_formulas (players : List String) (num_rounds : Nat) :
    (standings_rows (build_points_df players num_rounds)).length =
      players.length + 1 ∧
    (standings_rows (build_points_df players num_rounds)).getD 0 [] =
      ["Player", "Total Points"] ∧
    (∀ i, i < players.length →
      (standings_rows (build_points_df players num_rounds)).getD (i + 1) [] =
        [players.getD i "",
         "=SUM(Points!" ++ get_column_letter (i + 2) ++ "2:" ++
           get_column_letter (i + 2) ++ toString (num_rounds + 1) ++ ")"]) ∧
    (df_to_rows (build_points_df players num_rounds)).getD 0 [] =
      "" :: players := by
  have hcols : (build_points_df players num_rounds).cols.map (fun c => c.1) =
      players := by
    simp only [build_points_df, List.map_map]
    show List.map id players = players
    exact List.map_id players
  have hidx : (build_points_df players num_rounds).index.length = num_rounds := by
    simp [build_points_df]
  refine ⟨?_, rfl, ?_, ?_⟩
  · simp only [standings_rows, List.length_cons, List.length_map,
      List.enum_length, hcols]
  · intro i hi
    have hmlen : ((build_points_df players num_rounds).cols.map
        (fun c => c.1)).length = players.length := by rw [hcols]
    have hilt : i < (((build_points_df players num_rounds).cols.map
        (fun c => c.1)).enum.map (fun ip =>
          [ip.2, "=SUM(Points!" ++ get_column_letter (ip.1 + 2) ++ "2:" ++
            get_column_letter (ip.1 + 2) ++
            toString ((build_points_df players num_rounds).index.length + 1) ++
            ")"])).length := by
      simp only [List.length_map, List.enum_length, hmlen]
      exact hi
    rw [standings_rows, List.getD_cons_succ, List.getD_eq_getElem _ _ hilt]
    rw [List.getElem_map, List.getElem_enum]
    simp only [hidx]
    rw [← List.getD_eq_getElem ((build_points_df players num_rounds).cols.map
        (fun c => c.1)) "" (by rw [hmlen]; exact hi), hcols]
  · simp only [df_to_rows, build_points_df, List.getD_cons_zero, List.map_map]
    show ("" :: List.map id players) = "" :: players
    rw [List.map_id]

/-- Witness for C6 at two players and three rounds: the second player's
formula sums `C2:C4`. -/
theorem claim_C6_standings_formulas_witness :
    (standings_rows (build_points_df ["Ann", "Bob"] 3)).getD (1 + 1) [] =
      ["Bob", "=SUM(Points!" ++ get_column_letter 3 ++ "2:" ++
        get_column_letter 3 ++ toString 4 ++ ")"] :=
  (claim_C6_standings_formulas ["Ann", "Bob"] 3).2.2.1 1 (by norm_num)

/-! ## Determinism of the pipeline -/

theorem main_model_prior_irrel (players : List String) (d : Bool)
    (prior1 prior2 : Workbook) :
    main_model players d prior1 = main_model players d prior2 := rfl

/-- C8.  The generated cell contents are a function of the player list and
the double-round flag alone: the prior workbook at the output path does not
influence them (the first write pass replaces the file), and re-running the
pipeline over its own output reproduces it exactly. -/
theorem claim_C8_deterministic (players : List String) (d : Bool)
    (prior1 prior2 : Workbook) :
    main_model players d prior1 = main_model players d prior2 ∧
    (∀ out, main_model players d prior1 = some out →
      main_model players d out = some out) :=
  ⟨main_model_prior_irrel players d prior1 prior2,
   fun out h => (main_model_prior_irrel players d out prior1).trans h⟩

/-- Witness for C8 at two players, double round, two different prior
workbooks. -/
theorem claim_C8_deterministic_witness :
    main_model ["A", "B"] true [] =
      main_model ["A", "B"] true [("Old", [["x"]])] ∧
    (∀ out, main_model ["A", "B"] true [] = some out →
      main_model ["A", "B"] true out = some out) :=
  claim_C8_deterministic ["A", "B"] true [] [("Old", [["x"]])]

/-! ## The schedule table -/

theorem padTo_length (t : Nat) (cells : List String) :
    (padTo t cells).length = max t cells.length := by
  simp only [padTo, List.length_append, List.length_replicate]
  omega

theorem padTo_getD (t : Nat) (cells : List String) (i : Nat) :
    (padTo t cells).getD i "" =
      if i < cells.length then cells.getD i "" else "" := by
  by_cases h : i < cells.length
  · rw [if_pos h, padTo, List.getD_append _ _ _ _ h]
  · rw [if_neg h, padTo, List.getD_append_right _ _ _ _ (by omega)]
    rw [List.getD_eq_getElem?_getD, List.getElem?_replicate]
    by_cases h2 : i - cells.length < t - cells.length
    · rw [if_pos h2]
      rfl
    · rw [if_neg h2]
      rfl

/-- C4 fails as stated: with the empty rounds list (allowed by the claim's
"every list of rounds") and two players, `pd.DataFrame({})` has zero rows,
so the `df.index = ["Table 1"]` assignment raises a length-mismatch
`ValueError` (modelled by `none`): no table is produced. -/
theorem claim_C4_counterexample :
    ¬ ∃ df, build_schedule_df ["A", "B"] [] = some df := by
  rintro ⟨df, h⟩
  have hnone : build_schedule_df ["A", "B"] [] = none := rfl
  rw [hnone] at h
  cases h

/-- C4 as amended: for a nonempty rounds list in which every round has at
most `N / 2` pairings, `build_schedule_df` succeeds with a `Table 1..N/2`
index, one `Round r` column per round, the `a vs b` label of the pairing at
table position `t`, and empty-string padding for missing pairings. -/
theorem claim_C4_amended_schedule_table (players : List String)
    (rounds : List (List (String × String)))
    (hlen : 2 ≤ players.length) (he : players.length % 2 = 0)
    (hne : rounds ≠ [])
    (hround : ∀ r ∈ rounds, r.length ≤ players.length / 2) :
    ∃ df, build_schedule_df players rounds = some df ∧
      df.index = (List.range (players.length / 2)).map
        (fun i => "Table " ++ toString (i + 1)) ∧
      df.cols.length = rounds.length ∧
      (∀ ridx, ridx < rounds.length →
        (df.cols.getD ridx ("", [])).1 = "Round " ++ toString (ridx + 1) ∧
        (df.cols.getD ridx ("", [])).2.length = players.length / 2 ∧
        (∀ t, t < players.length / 2 →
          (df.cols.getD ridx ("", [])).2.getD t "" =
            if t < (rounds.getD ridx []).length then
              vsLabel ((rounds.getD ridx []).getD t ("", ""))
            else "")) := by
  have hall : ∀ c ∈ rounds.enum.map (fun ir =>
      ("Round " ++ toString (ir.1 + 1),
        padTo (players.length / 2) (ir.2.map vsLabel))),
      c.2.length = players.length / 2 := by
    intro c hc
    obtain ⟨ir, hir, hirc⟩ := List.mem_map.mp hc
    obtain ⟨j, hj, hje⟩ := List.mem_iff_getElem.mp hir
    rw [List.getElem_enum] at hje
    have hjlt : j < rounds.length := by
      rw [List.enum_length] at hj
      exact hj
    have hmem : ir.2 ∈ rounds := by
      rw [← hje]
      exact List.getElem_mem hjlt
    rw [← hirc]
    simp only [padTo_length, List.length_map]
    have := hround ir.2 hmem
    omega
  have hdata_len : (rounds.enum.map (fun ir =>
      ("Round " ++ toString (ir.1 + 1),
        padTo (players.length / 2) (ir.2.map vsLabel)))).length =
      rounds.length := by
    rw [List.length_map, List.enum_length]
  have hsome : build_schedule_df players rounds =
      some ⟨(List.range (players.length / 2)).map
          (fun i => "Table " ++ toString (i + 1)),
        rounds.enum.map (fun ir =>
          ("Round " ++ toString (ir.1 + 1),
            padTo (players.length / 2) (ir.2.map vsLabel)))⟩ := by
    rw [build_schedule_df]
    cases hd : rounds.enum.map (fun ir =>
        ("Round " ++ toString (ir.1 + 1),
          padTo (players.length / 2) (ir.2.map vsLabel))) with
    | nil =>
      rw [hd] at hdata_len
      simp at hdata_len
      exact absurd (List.length_eq_zero.mp hdata_len.symm) hne
    | cons c0 rest =>
      have hc0 : c0.2.length = players.length / 2 := by
        apply hall
        rw [hd]
        exact List.mem_cons_self c0 rest
      have hallb : (c0 :: rest).all
          (fun c => c.2.length = c0.2.length) = true := by
        rw [List.all_eq_true]
        intro c hcmem
        have := hall c (by rw [hd]; exact hcmem)
        simp only [decide_eq_true_eq]
        omega
      simp only [hd, List.head?_cons, Option.elim_some]
      rw [if_pos hallb, if_pos (by omega : c0.2.length = players.length / 2)]
  refine ⟨_, hsome, rfl, hdata_len, ?_⟩
  intro ridx hridx
  have hrlt : ridx < (rounds.enum.map (fun ir =>
      ("Round " ++ toString (ir.1 + 1),
        padTo (players.length / 2) (ir.2.map vsLabel)))).length := by
    rw [hdata_len]
    exact hridx
  have hgd : (rounds.enum.map (fun ir =>
      ("Round " ++ toString (ir.1 + 1),
        padTo (players.length / 2) (ir.2.map vsLabel)))).getD ridx ("", []) =
      ("Round " ++ toString (ridx + 1),
        padTo (players.length / 2) ((rounds.getD ridx []).map vsLabel)) := by
    rw [List.getD_eq_getElem _ _ hrlt, List.getElem_map, List.getElem_enum,
      List.getD_eq_getElem _ _ hridx]
  rw [hgd]
  refine ⟨rfl, ?_, ?_⟩
  · simp only [padTo_length, List.length_map]
    have := hround (rounds.getD ridx []) (by
      rw [List.getD_eq_getElem _ _ hridx]
      exact List.getElem_mem hridx)
    omega
  · intro t ht
    rw [padTo_getD]
    simp only [List.length_map]
    by_cases htr : t < (rounds.getD ridx []).length
    · rw [if_pos htr, if_pos htr, List.getD_eq_getElem _ _ (by
        rw [List.length_map]; exact htr), List.getElem_map,
        List.getD_eq_getElem _ _ htr]
    · rw [if_neg htr, if_neg htr]

/-- Witness for the amended C4: two players, one round with one pairing and
one empty round (defensively padded). -/
theorem claim_C4_amended_schedule_table_witness :
    ∃ df, build_schedule_df ["A", "B"] [[("A", "B")], []] = some df ∧
      df.index = (List.range 1).map (fun i => "Table " ++ toString (i + 1)) ∧
      df.cols.length = 2 ∧
      (∀ ridx, ridx < 2 →
        (df.cols.getD ridx ("", [])).1 = "Round " ++ toString (ridx + 1) ∧
        (df.cols.getD ridx ("", [])).2.length = 1 ∧
        (∀ t, t < 1 →
          (df.cols.getD ridx ("", [])).2.getD t "" =
            if t < ([[("A", "B")], []].getD ridx []).length then
              vsLabel (([[("A", "B")], []].getD ridx []).getD t ("", ""))
            else "")) :=
  claim_C4_amended_schedule_table ["A", "B"] [[("A", "B")], []]
    (by norm_num) (by norm_num) (by simp) (by decide)

/-! ## Frame properties of the store-passing embedding -/

theorem getD_append_lt (σ : Store) (v : PyObj) (a : Nat) (d : PyObj)
    (h : a < σ.length) : (σ ++ [v]).getD a d = σ.getD a d :=
  List.getD_append _ _ _ _ h

theorem getD_set_ne_store (σ : Store) (ra a : Nat) (v : PyObj) (d : PyObj)
    (h : a ≠ ra) : (σ.set ra v).getD a d = σ.getD a d := by
  rw [List.getD_eq_getElem?_getD, List.getD_eq_getElem?_getD,
    List.getElem?_set_ne (by omega : ra ≠ a)]

/-- The loop of `round_robin_pairings` writes only to the `rounds` object
(address `ra`) and to freshly allocated addresses: every address below `N`,
for any `N` at most `ra` and at most the store size, is untouched. -/
theorem rrLoopSt_frame (n : Nat) (fixed : String) (K : Nat) :
    ∀ (oa ra : Nat) (σ : Store) (N : Nat), N ≤ ra → N ≤ σ.length →
      ∀ a, a < N → ∀ d, (rrLoopSt n fixed K oa ra σ).getD a d = σ.getD a d := by
  induction K with
  | zero =>
    intro oa ra σ N hra hσ a ha d
    rfl
  | succ k ih =>
    intro oa ra σ N hra hσ a ha d
    rw [rrLoopSt]
    simp only [alloc]
    rw [ih _ ra _ N hra
      (by simp only [List.length_append, List.length_set, List.length_cons]
          omega)
      a ha d]
    rw [getD_append_lt _ _ _ _
      (by simp only [List.length_append, List.length_set, List.length_cons]
          omega)]
    rw [getD_set_ne_store _ _ _ _ _ (by omega)]
    rw [getD_append_lt _ _ _ _
      (by simp only [List.length_append, List.length_cons]; omega)]
    rw [getD_append_lt _ _ _ _
      (by simp only [List.length_append, List.length_cons]; omega)]
    rw [getD_append_lt _ _ _ _
      (by simp only [List.length_append, List.length_cons]; omega)]
    rw [getD_append_lt _ _ _ _ (by omega)]

/-- `round_robin_pairings` leaves every pre-existing store object intact. -/
theorem round_robin_pairings_st_frame {σ : Store} {pa ra : Nat} {σ2 : Store}
    (h : round_robin_pairings_st σ pa = some (ra, σ2)) :
    ∀ a, a < σ.length → ∀ d, σ2.getD a d = σ.getD a d := by
  intro a ha d
  unfold round_robin_pairings_st at h
  split at h
  · cases h
  · rename_i fixedv restv heq
    simp only [alloc] at h
    have hps := Option.some.inj h
    have hσ2 : σ2 = rrLoopSt (restv.length + 1) fixedv restv.length σ.length
        ((σ ++ [PyObj.ostrs restv]).length)
        (σ ++ [PyObj.ostrs restv] ++ [PyObj.orounds []]) :=
      (congrArg Prod.snd hps).symm
    rw [hσ2]
    rw [rrLoopSt_frame _ _ _ _ _ _ σ.length (by simp) (by simp) a ha d]
    rw [getD_append_lt _ _ _ _ (by simp; omega)]
    rw [getD_append_lt _ _ _ _ ha]

/-- The mirrored-rounds loop of `double_round_robin` only allocates: the
store grows and every pre-existing address is untouched. -/
theorem drrLoopSt_frame (rds : List Nat) :
    ∀ σ : Store, σ.length ≤ (drrLoopSt rds σ).2.length ∧
      ∀ a, a < σ.length → ∀ d, ((drrLoopSt rds σ).2).getD a d = σ.getD a d := by
  induction rds with
  | nil =>
    intro σ
    exact ⟨Nat.le_refl _, fun a ha d => rfl⟩
  | cons rd rest ih =>
    intro σ
    constructor
    · calc σ.length ≤ (σ ++ [PyObj.opairs
            ((readPairs σ rd).map (fun p => (p.2, p.1)))]).length := by
            simp
        _ ≤ _ := (ih _).1
    · intro a ha d
      show ((drrLoopSt rest _).2).getD a d = σ.getD a d
      rw [(ih _).2 a (by simp only [alloc, List.length_append]; omega) d]
      simp only [alloc]
      rw [getD_append_lt _ _ _ _ ha]

/-- `double_round_robin` leaves every pre-existing store object intact. -/
theorem double_round_robin_st_frame (σ : Store) (ra : Nat) :
    ∀ a, a < σ.length → ∀ d,
      ((double_round_robin_st σ ra).2).getD a d = σ.getD a d := by
  intro a ha d
  unfold double_round_robin_st
  simp only [alloc]
  rw [getD_append_lt _ _ _ _ (by
    have := (drrLoopSt_frame (readRounds σ ra) σ).1
    omega)]
  exact (drrLoopSt_frame (readRounds σ ra) σ).2 a ha d

/-- C9.  Neither `round_robin_pairings` nor `double_round_robin` mutates its
argument: in the store-passing embedding the caller's `players` list
(respectively rounds object) reads back unchanged after the call — the
rotation rebinds a freshly allocated list and the mirrored schedule is a
fresh object, the only in-place write being `rounds.append` on the local
`rounds` list. -/
theorem claim_C9_no_mutation :
    (∀ (σ : Store) (pa ra : Nat) (σ2 : Store),
      round_robin_pairings_st σ pa = some (ra, σ2) →
      pa < σ.length → readStrs σ2 pa = readStrs σ pa) ∧
    (∀ (σ : Store) (ra : Nat), ra < σ.length →
      readRounds (double_round_robin_st σ ra).2 ra = readRounds σ ra) := by
  constructor
  · intro σ pa ra σ2 h hpa
    rw [readStrs, readStrs, round_robin_pairings_st_frame h pa hpa]
  · intro σ ra hra
    rw [readRounds, readRounds, double_round_robin_st_frame σ ra ra hra]

/-- Witness for C9: a store holding the two-player list `[A, B]` at address
`0`; after the call the final store still reads back `[A, B]` there. -/
theorem claim_C9_no_mutation_witness :
    readStrs [PyObj.ostrs ["A", "B"], PyObj.ostrs ["B"], PyObj.orounds [6],
        PyObj.ostrs ["A", "B"], PyObj.ostrs ["A"], PyObj.ostrs ["B"],
        PyObj.opairs [("A", "B")], PyObj.ostrs ["B"]] 0 =
      readStrs [PyObj.ostrs ["A", "B"]] 0 :=
  claim_C9_no_mutation.1 [PyObj.ostrs ["A", "B"]] 0 2
    [PyObj.ostrs ["A", "B"], PyObj.ostrs ["B"], PyObj.orounds [6],
      PyObj.ostrs ["A", "B"], PyObj.ostrs ["A"], PyObj.ostrs ["B"],
      PyObj.opairs [("A", "B")], PyObj.ostrs ["B"]] rfl (by norm_num)

end Tournament
